import Mathlib

/-!
Verification development for the zittofetch terminal renderer
(src/gifzittofetch.py).

The Python source is shallowly embedded below.  Strings are modelled as
`List Char`; the optional third-party `wcwidth` dependency is modelled as
unavailable (the source guards it with a try/except and falls back to its
own range tables), so the embedded width functions are the source's own
fallback paths.  File-system and process effects of `main`/`render_loop`
are modelled as explicit effect traces; external status providers and the
terminal are modelled as oracles passed in as parameters.
-/

namespace Zittofetch

/-- The ESC character, `\x1b` in the source. -/
def esc : Char := Char.ofNat 27

/-- Characters allowed in the body of an ANSI escape run:
the `[0-9;]` class of the source regex `ANSI_RE = \x1b\[[0-9;]*m`. -/
def isAnsiBody (c : Char) : Bool := c.isDigit || c == ';'

/-- Attempt to lex one ANSI escape run `ESC [ body* m` at the head of the
list, exactly as `ANSI_RE.match(s, i)` anchors at position `i`.  Returns
the run together with the remainder of the string. -/
def ansiSplit? (l : List Char) : Option (List Char × List Char) :=
  match l with
  | c1 :: c2 :: rest =>
    if c1 = esc ∧ c2 = '[' then
      match rest.dropWhile isAnsiBody with
      | c3 :: tail =>
        if c3 = 'm' then
          some (c1 :: c2 :: (rest.takeWhile isAnsiBody ++ [c3]), tail)
        else none
      | [] => none
    else none
  | _ => none

/-- Fuelled worker for `stripAnsi` (`ANSI_RE.sub('', s)` in the source):
scan left to right, deleting every escape run, keeping every other
character.  Fuel is only a termination device; `stripAnsi` always supplies
enough. -/
def stripAnsiF : Nat → List Char → List Char
  | 0, l => l
  | _ + 1, [] => []
  | fuel + 1, c :: cs =>
    match ansiSplit? (c :: cs) with
    | some (_, tail) => stripAnsiF fuel tail
    | none => c :: stripAnsiF fuel cs

/-- `ANSI_RE.sub('', s)`: the string with every ANSI escape run removed. -/
def stripAnsi (l : List Char) : List Char := stripAnsiF l.length l

/-- Per-character cell width used by `visible_width`'s fallback heuristic
(source lines 60-69): eight wide ranges count 2, everything else 1. -/
def fw (c : Char) : Nat :=
  let o := c.toNat
  if (0x1100 ≤ o ∧ o ≤ 0x115F) ∨ (0x2E80 ≤ o ∧ o ≤ 0xA4CF) ∨
     (0xAC00 ≤ o ∧ o ≤ 0xD7A3) ∨ (0xF900 ≤ o ∧ o ≤ 0xFAFF) ∨
     (0xFE10 ≤ o ∧ o ≤ 0xFE19) ∨ (0xFE30 ≤ o ∧ o ≤ 0xFE6F) ∨
     (0xFF00 ≤ o ∧ o ≤ 0xFF60) ∨ (0x1F300 ≤ o ∧ o ≤ 0x1F64F)
  then 2 else 1

/-- Per-character cell width used inside `truncate_ansi`'s fallback branch
(source line 96): only two of the eight ranges are checked there. -/
def tw (c : Char) : Nat :=
  let o := c.toNat
  if (0x1F300 ≤ o ∧ o ≤ 0x1F64F) ∨ (0x1100 ≤ o ∧ o ≤ 0x115F) then 2 else 1

/-- Sum of fallback widths of a character list. -/
def fwSum (l : List Char) : Nat := (l.map fw).sum

/-- `visible_width(s)` (source lines 53-70) on the fallback path: strip
ANSI runs, then sum per-character widths. -/
def visible_width (s : List Char) : Nat := fwSum (stripAnsi s)

/-- The style-reset run `"\033[0m"` appended by `truncate_ansi`. -/
def resetRun : List Char := [esc, '[', '0', 'm']

/-- The bold-on run `"\033[1m"` used by `build_spec_lines`. -/
def boldRun : List Char := [esc, '[', '1', 'm']

/-- Fuelled worker for the scanning `while` loop of `truncate_ansi`
(source lines 76-101): while input remains and `vis < target`, copy escape
runs verbatim, drop stray ESC bytes, and copy glyphs whose width still
fits, stopping before any glyph that would overflow. -/
def truncGoF : Nat → Nat → Nat → List Char → List Char
  | 0, _, _, _ => []
  | fuel + 1, target, vis, l =>
    if vis < target then
      match l with
      | [] => []
      | c :: cs =>
        if c = esc then
          match ansiSplit? (c :: cs) with
          | some (run, tail) => run ++ truncGoF fuel target vis tail
          | none => truncGoF fuel target vis cs
        else
          if vis + tw c > target then []
          else c :: truncGoF fuel target (vis + tw c) cs
    else []

/-- The scanning loop of `truncate_ansi`, started with enough fuel. -/
def truncGo (target vis : Nat) (l : List Char) : List Char :=
  truncGoF l.length target vis l

/-- `truncate_ansi(s, target)` (source lines 72-103): return `s` unchanged
when it already fits, otherwise scan and append a style-reset run. -/
def truncate_ansi (s : List Char) (target : Nat) : List Char :=
  if visible_width s ≤ target then s
  else truncGo target 0 s ++ resetRun

/-- `pad_ansi(s, target, align)` (source lines 105-116).  The `align`
parameter is the Python string argument; any value other than
`"center"` behaves as left alignment, exactly as in the source. -/
def pad_ansi (s : List Char) (target : Nat) (align : String) : List Char :=
  let cur := visible_width s
  if cur ≥ target then truncate_ansi s target
  else
    let pad := target - cur
    if align = "center" then
      List.replicate (pad / 2) ' ' ++ s ++ List.replicate (pad - pad / 2) ' '
    else
      s ++ List.replicate pad ' '

/-- `SEPARATOR_CHAR = " │ "` (source line 44). -/
def SEPARATOR_CHAR : List Char := [' ', Char.ofNat 0x2502, ' ']

-- Sanity checks on concrete inputs (mirrors of runs of the Python code).
example : stripAnsi ([esc, '[', '3', '1', 'm'] ++ ['H', 'I'] ++ resetRun) = ['H', 'I'] := by decide
example : visible_width ([esc, '[', '3', '1', 'm'] ++ ['H', 'I'] ++ resetRun) = 2 := by decide
example : truncate_ansi ['a', 'b', 'c'] 2 = ['a', 'b'] ++ resetRun := by decide
example : pad_ansi ['o', 'k'] 5 "center" = [' ', 'o', 'k', ' ', ' '] := by decide

/-! ### Structure lemmas for the ANSI-run lexer -/

/-- A character that can never continue a partially-read escape run:
not `[`, not `m`, and not a body character. -/
def blockedChar (c : Char) : Prop := c ≠ '[' ∧ c ≠ 'm' ∧ isAnsiBody c = false

/-- A list whose head (if any) cannot continue a partially-read escape
run; appending such a list never completes an escape run that the prefix
alone did not contain. -/
def blockedHead : List Char → Prop
  | [] => True
  | c :: _ => blockedChar c

theorem takeWhile_append_all {p : Char → Bool} :
    ∀ (a : List Char), (∀ x ∈ a, p x = true) →
      ∀ b, (a ++ b).takeWhile p = a ++ b.takeWhile p := by
  intro a
  induction a with
  | nil => intro _ b; simp
  | cons x xs ih =>
    intro h b
    have hx : p x = true := h x (by simp)
    simp [List.takeWhile_cons, hx, ih (fun y hy => h y (by simp [hy])) b]

theorem dropWhile_append_all {p : Char → Bool} :
    ∀ (a : List Char), (∀ x ∈ a, p x = true) →
      ∀ b, (a ++ b).dropWhile p = b.dropWhile p := by
  intro a
  induction a with
  | nil => intro _ b; simp
  | cons x xs ih =>
    intro h b
    have hx : p x = true := h x (by simp)
    simp [List.dropWhile_cons, hx, ih (fun y hy => h y (by simp [hy])) b]

theorem dropWhile_append_cons {p : Char → Bool} :
    ∀ (a : List Char) {c : Char} {r : List Char}, a.dropWhile p = c :: r →
      ∀ b, (a ++ b).dropWhile p = c :: (r ++ b) := by
  intro a
  induction a with
  | nil => intro c r h b; simp at h
  | cons x xs ih =>
    intro c r h b
    by_cases hx : p x = true
    · rw [List.dropWhile_cons_of_pos hx] at h
      simpa [List.dropWhile_cons_of_pos hx] using ih h b
    · rw [List.dropWhile_cons_of_neg hx] at h
      obtain ⟨rfl, rfl⟩ := List.cons.inj h
      simp [List.dropWhile_cons_of_neg hx]

/-- Computing `ansiSplit?` on a well-shaped run followed by anything. -/
theorem ansiSplit?_of_shape {body : List Char}
    (hb : ∀ c ∈ body, isAnsiBody c = true) (rest : List Char) :
    ansiSplit? ((esc :: '[' :: (body ++ ['m'])) ++ rest) =
      some (esc :: '[' :: (body ++ ['m']), rest) := by
  have hm : isAnsiBody 'm' = false := by decide
  have harr : (esc :: '[' :: (body ++ ['m'])) ++ rest
      = esc :: '[' :: (body ++ 'm' :: rest) := by simp
  rw [harr]
  have hdw : (body ++ 'm' :: rest).dropWhile isAnsiBody = 'm' :: rest := by
    rw [dropWhile_append_all body hb, List.dropWhile_cons_of_neg (by simp [hm])]
  have htw : (body ++ 'm' :: rest).takeWhile isAnsiBody = body := by
    rw [takeWhile_append_all body hb, List.takeWhile_cons_of_neg (by simp [hm])]
    simp
  simp [ansiSplit?, hdw, htw]

/-- Unfolding equation of `ansiSplit?` on a list with at least two
elements. -/
theorem ansiSplit?_cons_cons (c1 c2 : Char) (rest : List Char) :
    ansiSplit? (c1 :: c2 :: rest) =
      if c1 = esc ∧ c2 = '[' then
        match rest.dropWhile isAnsiBody with
        | c3 :: tail =>
          if c3 = 'm' then
            some (c1 :: c2 :: (rest.takeWhile isAnsiBody ++ [c3]), tail)
          else none
        | [] => none
      else none := rfl

theorem ansiSplit?_eq_some {l run tail : List Char}
    (h : ansiSplit? l = some (run, tail)) :
    ∃ body, (∀ c ∈ body, isAnsiBody c = true) ∧
      run = esc :: '[' :: (body ++ ['m']) ∧ l = run ++ tail := by
  match l with
  | [] => exact absurd h (by simp [ansiSplit?])
  | [c] => exact absurd h (by simp [ansiSplit?])
  | c1 :: c2 :: rest =>
    rw [ansiSplit?_cons_cons] at h
    by_cases hc : c1 = esc ∧ c2 = '['
    · rw [if_pos hc] at h
      obtain ⟨rfl, rfl⟩ := hc
      cases hdw : rest.dropWhile isAnsiBody with
      | nil => rw [hdw] at h; exact absurd h (by simp)
      | cons c3 tl =>
        rw [hdw] at h
        simp only [] at h
        by_cases hm : c3 = 'm'
        · rw [if_pos hm] at h
          subst hm
          obtain ⟨h1, h2⟩ := Prod.mk.inj (Option.some.inj h)
          refine ⟨rest.takeWhile isAnsiBody,
            fun c hcm => List.mem_takeWhile_imp hcm, h1.symm, ?_⟩
          subst h2
          rw [← h1]
          have hrest : rest = rest.takeWhile isAnsiBody ++ 'm' :: tl := by
            conv_lhs => rw [← List.takeWhile_append_dropWhile (p := isAnsiBody) (l := rest)]
            rw [hdw]
          rw [List.cons_append, List.cons_append, List.append_assoc,
            List.singleton_append, ← hrest]
        · rw [if_neg hm] at h; exact absurd h (by simp)
    · rw [if_neg hc] at h; exact absurd h (by simp)

theorem ansiSplit?_some_append {l run tail : List Char}
    (h : ansiSplit? l = some (run, tail)) (t : List Char) :
    ansiSplit? (l ++ t) = some (run, tail ++ t) := by
  obtain ⟨body, hb, hrun, hl⟩ := ansiSplit?_eq_some h
  subst hrun; subst hl
  rw [List.append_assoc]
  exact ansiSplit?_of_shape hb (tail ++ t)

theorem ansiSplit?_some_length {l run tail : List Char}
    (h : ansiSplit? l = some (run, tail)) : tail.length + 3 ≤ l.length := by
  obtain ⟨body, _, hrun, hl⟩ := ansiSplit?_eq_some h
  subst hrun; subst hl
  simp only [List.length_append, List.length_cons, List.length_singleton]
  omega

theorem ansiSplit?_none_of_head {c : Char} (hc : c ≠ esc) (cs : List Char) :
    ansiSplit? (c :: cs) = none := by
  cases cs with
  | nil => rfl
  | cons c2 r =>
    have hcc : ¬ (c = esc ∧ c2 = '[') := fun h => hc h.1
    simp [ansiSplit?, hcc]

/-- A failed match at the head of a nonempty string stays failed after
appending a blocked-head continuation. -/
theorem ansiSplit?_none_append {l : List Char} (hne : l ≠ []) {t : List Char}
    (hb : blockedHead t) (h : ansiSplit? l = none) :
    ansiSplit? (l ++ t) = none := by
  match l with
  | [] => exact absurd rfl hne
  | [c] =>
    cases t with
    | nil => simpa using h
    | cons c0 t2 =>
      obtain ⟨hb1, _, _⟩ := hb
      have hcc : ¬ (c = esc ∧ c0 = '[') := fun hx => hb1 hx.2
      rw [List.singleton_append, ansiSplit?_cons_cons, if_neg hcc]
  | c1 :: c2 :: rest =>
    have harr : (c1 :: c2 :: rest) ++ t = c1 :: c2 :: (rest ++ t) := rfl
    rw [harr, ansiSplit?_cons_cons]
    by_cases hc : c1 = esc ∧ c2 = '['
    · rw [if_pos hc]
      rw [ansiSplit?_cons_cons, if_pos hc] at h
      cases hdw : rest.dropWhile isAnsiBody with
      | nil =>
        have hall : ∀ x ∈ rest, isAnsiBody x = true :=
          fun x hx => List.dropWhile_eq_nil_iff.mp hdw x hx
        rw [dropWhile_append_all rest hall t]
        cases t with
        | nil => rfl
        | cons c0 t2 =>
          obtain ⟨_, hm, hbody⟩ := hb
          rw [List.dropWhile_cons_of_neg (by simp [hbody])]
          simp only []
          rw [if_neg hm]
      | cons c3 tl =>
        rw [hdw] at h
        simp only [] at h
        have hm3 : c3 ≠ 'm' := by
          intro hx
          rw [if_pos hx] at h
          exact Option.noConfusion h
        rw [dropWhile_append_cons rest hdw t]
        simp only []
        rw [if_neg hm3]
    · rw [if_neg hc]

/-! ### Fuel irrelevance and unfolding equations for `stripAnsi` -/

theorem stripAnsiF_nil (fuel : Nat) : stripAnsiF fuel [] = [] := by
  cases fuel <;> rfl

theorem stripAnsiF_fuel : ∀ (f1 f2 : Nat) (l : List Char),
    l.length ≤ f1 → l.length ≤ f2 → stripAnsiF f1 l = stripAnsiF f2 l := by
  intro f1
  induction f1 with
  | zero =>
    intro f2 l h1 _
    have : l = [] := List.length_eq_zero.mp (Nat.le_zero.mp h1)
    subst this
    rw [stripAnsiF_nil, stripAnsiF_nil]
  | succ f ih =>
    intro f2 l h1 h2
    match l with
    | [] => rw [stripAnsiF_nil, stripAnsiF_nil]
    | c :: cs =>
      cases f2 with
      | zero => simp at h2
      | succ f2 =>
        simp only [stripAnsiF]
        cases hsp : ansiSplit? (c :: cs) with
        | some rt =>
          obtain ⟨run, tail⟩ := rt
          have hlen := ansiSplit?_some_length hsp
          simp only [List.length_cons] at h1 h2 hlen
          exact ih f2 tail (by omega) (by omega)
        | none =>
          simp only [List.length_cons] at h1 h2
          rw [ih f2 cs (by omega) (by omega)]

theorem stripAnsi_nil : stripAnsi [] = [] := rfl

theorem stripAnsi_cons_of_split {c : Char} {cs run tail : List Char}
    (h : ansiSplit? (c :: cs) = some (run, tail)) :
    stripAnsi (c :: cs) = stripAnsi tail := by
  have hlen := ansiSplit?_some_length h
  simp only [List.length_cons] at hlen
  show stripAnsiF (cs.length + 1) (c :: cs) = _
  simp only [stripAnsiF, h]
  exact stripAnsiF_fuel cs.length tail.length tail (by omega) (le_refl _)

theorem stripAnsi_cons_of_none {c : Char} {cs : List Char}
    (h : ansiSplit? (c :: cs) = none) :
    stripAnsi (c :: cs) = c :: stripAnsi cs := by
  show stripAnsiF (cs.length + 1) (c :: cs) = _
  simp only [stripAnsiF, h]
  rfl

theorem stripAnsi_cons {c : Char} (hc : c ≠ esc) (cs : List Char) :
    stripAnsi (c :: cs) = c :: stripAnsi cs :=
  stripAnsi_cons_of_none (ansiSplit?_none_of_head hc cs)

/-- Stripping distributes over append when the appended part cannot
continue a partial escape run from the left part. -/
theorem stripAnsi_append {t : List Char} (hb : blockedHead t) :
    ∀ (s : List Char), stripAnsi (s ++ t) = stripAnsi s ++ stripAnsi t := by
  have aux : ∀ (n : Nat) (s : List Char), s.length ≤ n →
      stripAnsi (s ++ t) = stripAnsi s ++ stripAnsi t := by
    intro n
    induction n with
    | zero =>
      intro s h
      have : s = [] := List.length_eq_zero.mp (Nat.le_zero.mp h)
      subst this
      simp [stripAnsi_nil]
    | succ n ih =>
      intro s hlen
      cases s with
      | nil => simp [stripAnsi_nil]
      | cons c cs =>
        cases hsp : ansiSplit? (c :: cs) with
        | some rt =>
          obtain ⟨run, tail⟩ := rt
          have h2 := ansiSplit?_some_append hsp t
          rw [List.cons_append] at h2
          rw [List.cons_append, stripAnsi_cons_of_split h2, stripAnsi_cons_of_split hsp]
          have hl := ansiSplit?_some_length hsp
          simp only [List.length_cons] at hl hlen
          exact ih tail (by omega)
        | none =>
          have h2 : ansiSplit? ((c :: cs) ++ t) = none :=
            ansiSplit?_none_append (by simp) hb hsp
          rw [List.cons_append] at h2
          rw [List.cons_append, stripAnsi_cons_of_none h2, stripAnsi_cons_of_none hsp]
          simp only [List.length_cons] at hlen
          rw [ih cs (by omega)]
          simp
  exact fun s => aux s.length s (le_refl _)

/-! ### Fuel irrelevance and unfolding equations for the truncation scan -/

theorem truncGoF_nil (fuel target vis : Nat) : truncGoF fuel target vis [] = [] := by
  cases fuel with
  | zero => rfl
  | succ f => simp [truncGoF]

theorem truncGoF_not_lt (fuel target vis : Nat) (l : List Char) (h : ¬ vis < target) :
    truncGoF fuel target vis l = [] := by
  cases fuel with
  | zero => rfl
  | succ f => simp only [truncGoF, if_neg h]

theorem truncGoF_fuel : ∀ (f1 f2 target vis : Nat) (l : List Char),
    l.length ≤ f1 → l.length ≤ f2 →
      truncGoF f1 target vis l = truncGoF f2 target vis l := by
  intro f1
  induction f1 with
  | zero =>
    intro f2 t v l h1 _
    have : l = [] := List.length_eq_zero.mp (Nat.le_zero.mp h1)
    subst this
    rw [truncGoF_nil, truncGoF_nil]
  | succ f ih =>
    intro f2 t v l h1 h2
    match l with
    | [] => rw [truncGoF_nil, truncGoF_nil]
    | c :: cs =>
      cases f2 with
      | zero => simp at h2
      | succ f2 =>
        by_cases hv : v < t
        · simp only [truncGoF, if_pos hv]
          simp only [List.length_cons] at h1 h2
          by_cases hc : c = esc
          · simp only [if_pos hc]
            cases hsp : ansiSplit? (c :: cs) with
            | some rt =>
              obtain ⟨run, tail⟩ := rt
              have hlen := ansiSplit?_some_length hsp
              simp only [List.length_cons] at hlen
              simp only []
              rw [ih f2 t v tail (by omega) (by omega)]
            | none =>
              simp only []
              rw [ih f2 t v cs (by omega) (by omega)]
          · simp only [if_neg hc]
            by_cases hw : v + tw c > t
            · simp only [if_pos hw]
            · simp only [if_neg hw]
              rw [ih f2 t (v + tw c) cs (by omega) (by omega)]
        · rw [truncGoF_not_lt _ _ _ _ hv, truncGoF_not_lt _ _ _ _ hv]

theorem truncGo_nil (target vis : Nat) : truncGo target vis [] = [] := rfl

theorem truncGo_not_lt {target vis : Nat} (h : ¬ vis < target) (l : List Char) :
    truncGo target vis l = [] :=
  truncGoF_not_lt _ _ _ _ h

theorem truncGo_run {target vis : Nat} {c : Char} {cs run tail : List Char}
    (hv : vis < target) (hsp : ansiSplit? (c :: cs) = some (run, tail)) :
    truncGo target vis (c :: cs) = run ++ truncGo target vis tail := by
  have hc : c = esc := by
    obtain ⟨body, _, hrun, hl⟩ := ansiSplit?_eq_some hsp
    subst hrun
    exact (List.cons.inj hl).1
  have hlen := ansiSplit?_some_length hsp
  simp only [List.length_cons] at hlen
  show truncGoF (cs.length + 1) target vis (c :: cs) = _
  simp only [truncGoF, if_pos hv, if_pos hc, hsp]
  rw [truncGoF_fuel cs.length tail.length target vis tail (by omega) (le_refl _)]
  rfl

theorem truncGo_skip {target vis : Nat} {c : Char} {cs : List Char}
    (hv : vis < target) (hc : c = esc) (hsp : ansiSplit? (c :: cs) = none) :
    truncGo target vis (c :: cs) = truncGo target vis cs := by
  show truncGoF (cs.length + 1) target vis (c :: cs) = _
  simp only [truncGoF, if_pos hv, if_pos hc, hsp]
  rfl

theorem truncGo_glyph_break {target vis : Nat} {c : Char} {cs : List Char}
    (hv : vis < target) (hc : c ≠ esc) (hw : vis + tw c > target) :
    truncGo target vis (c :: cs) = [] := by
  show truncGoF (cs.length + 1) target vis (c :: cs) = _
  simp only [truncGoF, if_pos hv, if_neg hc, if_pos hw]

theorem truncGo_glyph {target vis : Nat} {c : Char} {cs : List Char}
    (hv : vis < target) (hc : c ≠ esc) (hw : ¬ vis + tw c > target) :
    truncGo target vis (c :: cs) = c :: truncGo target (vis + tw c) cs := by
  show truncGoF (cs.length + 1) target vis (c :: cs) = _
  simp only [truncGoF, if_pos hv, if_neg hc, if_neg hw]
  rfl

/-! ### Width bound for the truncation scan -/

theorem fwSum_nil : fwSum [] = 0 := rfl

theorem fwSum_cons (c : Char) (l : List Char) : fwSum (c :: l) = fw c + fwSum l := by
  simp [fwSum]

theorem fwSum_append (a b : List Char) : fwSum (a ++ b) = fwSum a + fwSum b := by
  simp [fwSum]

/-- Stripping a complete escape run off the front, with an arbitrary
continuation. -/
theorem stripAnsi_run {l run tail : List Char}
    (h : ansiSplit? l = some (run, tail)) (X : List Char) :
    stripAnsi (run ++ X) = stripAnsi X := by
  obtain ⟨body, hb, hrun, _⟩ := ansiSplit?_eq_some h
  subst hrun
  have h2 := ansiSplit?_of_shape hb X
  rw [List.cons_append] at h2 ⊢
  exact stripAnsi_cons_of_split h2

/-- Core width bound: the glyphs the truncation scan emits, measured with
`visible_width`'s per-character widths, never exceed the remaining budget,
provided the two width tables agree on every character of the input. -/
theorem truncGo_width_le {target : Nat} :
    ∀ (s : List Char), (∀ c ∈ s, tw c = fw c) → ∀ vis, vis ≤ target →
      fwSum (stripAnsi (truncGo target vis s)) + vis ≤ target := by
  have aux : ∀ (n : Nat) (s : List Char), s.length ≤ n →
      (∀ c ∈ s, tw c = fw c) → ∀ vis, vis ≤ target →
        fwSum (stripAnsi (truncGo target vis s)) + vis ≤ target := by
    intro n
    induction n with
    | zero =>
      intro s hlen _ vis hv
      have : s = [] := List.length_eq_zero.mp (Nat.le_zero.mp hlen)
      subst this
      rw [truncGo_nil, stripAnsi_nil, fwSum_nil]
      omega
    | succ n ih =>
      intro s hlen hagree vis hv
      by_cases hvt : vis < target
      · cases s with
        | nil =>
          rw [truncGo_nil, stripAnsi_nil, fwSum_nil]
          omega
        | cons c cs =>
          simp only [List.length_cons] at hlen
          by_cases hc : c = esc
          · cases hsp : ansiSplit? (c :: cs) with
            | some rt =>
              obtain ⟨run, tail⟩ := rt
              rw [truncGo_run hvt hsp, stripAnsi_run hsp]
              have hlen2 := ansiSplit?_some_length hsp
              simp only [List.length_cons] at hlen2
              have hsub : ∀ x ∈ tail, tw x = fw x := by
                intro x hx
                obtain ⟨_, _, _, hl⟩ := ansiSplit?_eq_some hsp
                exact hagree x (by rw [hl]; exact List.mem_append_right _ hx)
              exact ih tail (by omega) hsub vis hv
            | none =>
              rw [truncGo_skip hvt hc hsp]
              exact ih cs (by omega)
                (fun x hx => hagree x (List.mem_cons_of_mem _ hx)) vis hv
          · by_cases hw : vis + tw c > target
            · rw [truncGo_glyph_break hvt hc hw, stripAnsi_nil, fwSum_nil]
              omega
            · rw [truncGo_glyph hvt hc hw, stripAnsi_cons hc, fwSum_cons]
              have htwc : tw c = fw c := hagree c (List.mem_cons_self _ _)
              have := ih cs (by omega)
                (fun x hx => hagree x (List.mem_cons_of_mem _ hx))
                (vis + tw c) (by omega)
              omega
      · rw [truncGo_not_lt hvt, stripAnsi_nil, fwSum_nil]
        omega
  exact fun s hagree vis hv => aux s.length s (le_refl _) hagree vis hv

theorem blockedHead_resetRun : blockedHead resetRun :=
  ⟨by decide, by decide, by decide⟩

theorem stripAnsi_resetRun : stripAnsi resetRun = [] := by decide

/-- The width guarantee of `truncate_ansi`, valid when both width tables
agree on every character of the input. -/
theorem truncate_ansi_width_le (s : List Char) (n : Nat)
    (h : ∀ c ∈ s, tw c = fw c) : visible_width (truncate_ansi s n) ≤ n := by
  unfold truncate_ansi
  by_cases hfit : visible_width s ≤ n
  · rw [if_pos hfit]
    exact hfit
  · rw [if_neg hfit]
    show fwSum (stripAnsi (truncGo n 0 s ++ resetRun)) ≤ n
    rw [stripAnsi_append blockedHead_resetRun, stripAnsi_resetRun,
      List.append_nil]
    have h0 := truncGo_width_le s h 0 (Nat.zero_le n)
    omega

/-! ### Padding and composition -/

theorem stripAnsi_spaces (p : Nat) :
    stripAnsi (List.replicate p ' ') = List.replicate p ' ' := by
  induction p with
  | zero => rfl
  | succ p ih =>
    rw [List.replicate_succ, stripAnsi_cons (by decide), ih]

theorem stripAnsi_spaces_append (p : Nat) (s : List Char) :
    stripAnsi (List.replicate p ' ' ++ s) =
      List.replicate p ' ' ++ stripAnsi s := by
  induction p with
  | zero => simp
  | succ p ih =>
    rw [List.replicate_succ, List.cons_append, stripAnsi_cons (by decide), ih,
      List.cons_append]

theorem blockedHead_spaces (p : Nat) : blockedHead (List.replicate p ' ') := by
  cases p with
  | zero => trivial
  | succ p => exact ⟨by decide, by decide, by decide⟩

theorem fwSum_spaces (p : Nat) : fwSum (List.replicate p ' ') = p := by
  induction p with
  | zero => rfl
  | succ p ih =>
    rw [List.replicate_succ, fwSum_cons, ih]
    have h1 : fw ' ' = 1 := by decide
    omega

theorem visible_width_append_spaces (s : List Char) (p : Nat) :
    visible_width (s ++ List.replicate p ' ') = visible_width s + p := by
  show fwSum (stripAnsi (s ++ List.replicate p ' ')) = _
  rw [stripAnsi_append (blockedHead_spaces p) s, fwSum_append, stripAnsi_spaces,
    fwSum_spaces]
  rfl

theorem visible_width_spaces_append (p : Nat) (s : List Char) :
    visible_width (List.replicate p ' ' ++ s) = p + visible_width s := by
  show fwSum (stripAnsi (List.replicate p ' ' ++ s)) = _
  rw [stripAnsi_spaces_append, fwSum_append, fwSum_spaces]
  rfl

/-- When the input already fits, `truncate_ansi` is the identity. -/
theorem truncate_ansi_of_le {s : List Char} {n : Nat}
    (h : visible_width s ≤ n) : truncate_ansi s n = s := by
  unfold truncate_ansi
  rw [if_pos h]

/-- When truncation occurs, the result is the scanned prefix followed by
the unconditionally appended style-reset run. -/
theorem truncate_ansi_of_gt {s : List Char} {n : Nat}
    (h : ¬ visible_width s ≤ n) :
    truncate_ansi s n = truncGo n 0 s ++ resetRun := by
  unfold truncate_ansi
  rw [if_neg h]

/-- When the input fits, `pad_ansi` yields exactly the target width. -/
theorem pad_ansi_width_of_le (s : List Char) (target : Nat) (align : String)
    (h : visible_width s ≤ target) :
    visible_width (pad_ansi s target align) = target := by
  unfold pad_ansi
  by_cases hge : visible_width s ≥ target
  · rw [if_pos hge, truncate_ansi_of_le h]
    omega
  · rw [if_neg hge]
    by_cases hc : align = "center"
    · rw [if_pos hc, visible_width_append_spaces, visible_width_spaces_append]
      omega
    · rw [if_neg hc, visible_width_append_spaces]
      omega

/-- One output line of the compositor (render_loop, source lines 479-485):
the left segment, the separator, and the right segment truncated to
`max(0, term_w - visible_width(left) - visible_width(separator))`
(Python's `max(0, a - b)` is truncated subtraction on `Nat`). -/
def compose_row (left right : List Char) (term_w : Nat) : List Char :=
  left ++ SEPARATOR_CHAR ++
    truncate_ansi right
      (term_w - visible_width left - visible_width SEPARATOR_CHAR)

theorem blockedHead_sep_append (X : List Char) :
    blockedHead (SEPARATOR_CHAR ++ X) :=
  ⟨by decide, by decide, by decide⟩

theorem visible_width_sep_append (l X : List Char) :
    visible_width (l ++ SEPARATOR_CHAR ++ X) =
      visible_width l + visible_width SEPARATOR_CHAR + visible_width X := by
  show fwSum (stripAnsi (l ++ SEPARATOR_CHAR ++ X)) = _
  rw [List.append_assoc, stripAnsi_append (blockedHead_sep_append X) l,
    fwSum_append]
  have hsep : stripAnsi (SEPARATOR_CHAR ++ X) =
      SEPARATOR_CHAR ++ stripAnsi X := by
    show stripAnsi (' ' :: Char.ofNat 0x2502 :: ' ' :: X) = _
    rw [stripAnsi_cons (by decide), stripAnsi_cons (by decide),
      stripAnsi_cons (by decide)]
    rfl
  rw [hsep, fwSum_append]
  show _ = fwSum (stripAnsi l) + visible_width SEPARATOR_CHAR + fwSum (stripAnsi X)
  have hs : fwSum SEPARATOR_CHAR = visible_width SEPARATOR_CHAR := by decide
  omega

/-! ### Well-formed styled strings and the scan-stop property -/

/-- Sum of the truncation scan's per-character widths. -/
def twSum (l : List Char) : Nat := (l.map tw).sum

theorem twSum_nil : twSum [] = 0 := rfl

theorem twSum_cons (c : Char) (l : List Char) :
    twSum (c :: l) = tw c + twSum l := by
  simp [twSum]

theorem twSum_eq_fwSum_of_agree {l : List Char}
    (h : ∀ c ∈ l, tw c = fw c) : twSum l = fwSum l := by
  induction l with
  | nil => rfl
  | cons c cs ih =>
    rw [twSum_cons, fwSum_cons, h c (List.mem_cons_self _ _),
      ih (fun x hx => h x (List.mem_cons_of_mem _ hx))]

/-- Fuelled check that every ESC byte in a string begins a complete
escape run (so the string contains no stray ESC bytes). -/
def wfF : Nat → List Char → Bool
  | 0, l => l.isEmpty
  | _ + 1, [] => true
  | fuel + 1, c :: cs =>
    if c = esc then
      match ansiSplit? (c :: cs) with
      | some (_, tail) => wfF fuel tail
      | none => false
    else wfF fuel cs

/-- Every ESC byte in `l` begins a complete escape run. -/
def wfAnsi (l : List Char) : Bool := wfF l.length l

theorem wfF_nil (f : Nat) : wfF f [] = true := by cases f <;> rfl

theorem wfF_fuel : ∀ (f1 f2 : Nat) (l : List Char),
    l.length ≤ f1 → l.length ≤ f2 → wfF f1 l = wfF f2 l := by
  intro f1
  induction f1 with
  | zero =>
    intro f2 l h1 _
    have : l = [] := List.length_eq_zero.mp (Nat.le_zero.mp h1)
    subst this
    rw [wfF_nil, wfF_nil]
  | succ f ih =>
    intro f2 l h1 h2
    match l with
    | [] => rw [wfF_nil, wfF_nil]
    | c :: cs =>
      cases f2 with
      | zero => simp at h2
      | succ f2 =>
        simp only [wfF]
        simp only [List.length_cons] at h1 h2
        by_cases hc : c = esc
        · simp only [if_pos hc]
          cases hsp : ansiSplit? (c :: cs) with
          | some rt =>
            obtain ⟨run, tail⟩ := rt
            have hlen := ansiSplit?_some_length hsp
            simp only [List.length_cons] at hlen
            simp only []
            rw [ih f2 tail (by omega) (by omega)]
          | none => simp only []
        · simp only [if_neg hc]
          rw [ih f2 cs (by omega) (by omega)]

theorem wfAnsi_cons_ne {c : Char} {cs : List Char} (hc : c ≠ esc) :
    wfAnsi (c :: cs) = wfAnsi cs := by
  show wfF (cs.length + 1) (c :: cs) = _
  simp only [wfF, if_neg hc]
  rfl

theorem wfAnsi_cons_split {c : Char} {cs run tail : List Char}
    (hc : c = esc) (hsp : ansiSplit? (c :: cs) = some (run, tail)) :
    wfAnsi (c :: cs) = wfAnsi tail := by
  have hlen := ansiSplit?_some_length hsp
  simp only [List.length_cons] at hlen
  show wfF (cs.length + 1) (c :: cs) = _
  simp only [wfF, if_pos hc, hsp]
  exact wfF_fuel cs.length tail.length tail (by omega) (le_refl _)

theorem wfAnsi_cons_none {c : Char} {cs : List Char}
    (hc : c = esc) (hsp : ansiSplit? (c :: cs) = none) :
    wfAnsi (c :: cs) = false := by
  show wfF (cs.length + 1) (c :: cs) = false
  simp only [wfF, if_pos hc, hsp]

/-- The stripped string is a subsequence of the input. -/
theorem stripAnsi_sublist : ∀ (l : List Char), List.Sublist (stripAnsi l) l := by
  have aux : ∀ (n : Nat) (l : List Char), l.length ≤ n → List.Sublist (stripAnsi l) l := by
    intro n
    induction n with
    | zero =>
      intro l h
      have : l = [] := List.length_eq_zero.mp (Nat.le_zero.mp h)
      subst this
      exact List.Sublist.refl _
    | succ n ih =>
      intro l hlen
      cases l with
      | nil => exact List.Sublist.refl _
      | cons c cs =>
        simp only [List.length_cons] at hlen
        cases hsp : ansiSplit? (c :: cs) with
        | some rt =>
          obtain ⟨run, tail⟩ := rt
          rw [stripAnsi_cons_of_split hsp]
          obtain ⟨_, _, _, hl⟩ := ansiSplit?_eq_some hsp
          have hlen2 := ansiSplit?_some_length hsp
          simp only [List.length_cons] at hlen2
          have h1 : List.Sublist (stripAnsi tail) tail := ih tail (by omega)
          have h2 : List.Sublist tail (c :: cs) := by
            rw [hl]
            exact List.sublist_append_right _ _
          exact h1.trans h2
        | none =>
          rw [stripAnsi_cons_of_none hsp]
          exact (ih cs (by omega)).cons₂ c
  exact fun l => aux l.length l (le_refl _)

/-- Scan-stop: once the remaining glyph budget is certain to overflow,
anything appended beyond the input is never reached by the truncation
scan — provided every ESC in the input begins a complete run. -/
theorem truncGo_append_of_overflow {target : Nat} :
    ∀ (s : List Char), wfAnsi s = true →
      ∀ vis, vis + twSum (stripAnsi s) > target →
        ∀ t, truncGo target vis (s ++ t) = truncGo target vis s := by
  have aux : ∀ (n : Nat) (s : List Char), s.length ≤ n → wfAnsi s = true →
      ∀ vis, vis + twSum (stripAnsi s) > target →
        ∀ t, truncGo target vis (s ++ t) = truncGo target vis s := by
    intro n
    induction n with
    | zero =>
      intro s hlen _ vis hover t
      have : s = [] := List.length_eq_zero.mp (Nat.le_zero.mp hlen)
      subst this
      rw [stripAnsi_nil, twSum_nil] at hover
      have hnv : ¬ vis < target := by omega
      rw [List.nil_append, truncGo_not_lt hnv, truncGo_not_lt hnv]
    | succ n ih =>
      intro s hlen hwf vis hover t
      by_cases hv : vis < target
      · cases s with
        | nil =>
          rw [stripAnsi_nil, twSum_nil] at hover
          omega
        | cons c cs =>
          simp only [List.length_cons] at hlen
          by_cases hc : c = esc
          · cases hsp : ansiSplit? (c :: cs) with
            | some rt =>
              obtain ⟨run, tail⟩ := rt
              have hsp2 : ansiSplit? (c :: (cs ++ t)) = some (run, tail ++ t) := by
                have := ansiSplit?_some_append hsp t
                rwa [List.cons_append] at this
              rw [show (c :: cs) ++ t = c :: (cs ++ t) from rfl,
                truncGo_run hv hsp2, truncGo_run hv hsp]
              congr 1
              have hwt : wfAnsi tail = true := by
                rw [wfAnsi_cons_split hc hsp] at hwf
                exact hwf
              have hst : stripAnsi (c :: cs) = stripAnsi tail :=
                stripAnsi_cons_of_split hsp
              rw [hst] at hover
              have hlen2 := ansiSplit?_some_length hsp
              simp only [List.length_cons] at hlen2
              exact ih tail (by omega) hwt vis hover t
            | none =>
              rw [wfAnsi_cons_none hc hsp] at hwf
              exact absurd hwf (by simp)
          · have hst : stripAnsi (c :: cs) = c :: stripAnsi cs :=
              stripAnsi_cons hc cs
            rw [hst, twSum_cons] at hover
            by_cases hw : vis + tw c > target
            · rw [show (c :: cs) ++ t = c :: (cs ++ t) from rfl,
                truncGo_glyph_break hv hc hw, truncGo_glyph_break hv hc hw]
            · rw [show (c :: cs) ++ t = c :: (cs ++ t) from rfl,
                truncGo_glyph hv hc hw, truncGo_glyph hv hc hw]
              congr 1
              have hwcs : wfAnsi cs = true := by
                rw [wfAnsi_cons_ne hc] at hwf
                exact hwf
              exact ih cs (by omega) hwcs (vis + tw c) (by omega) t
      · rw [truncGo_not_lt hv, truncGo_not_lt hv]
  exact fun s hwf vis hover t => aux s.length s (le_refl _) hwf vis hover t

/-- Appending a style-reset run never changes the visible width. -/
theorem visible_width_append_resetRun (s : List Char) :
    visible_width (s ++ resetRun) = visible_width s := by
  show fwSum (stripAnsi (s ++ resetRun)) = _
  rw [stripAnsi_append blockedHead_resetRun, stripAnsi_resetRun,
    List.append_nil]
  rfl

/-- When truncation occurs on a well-formed input with agreeing widths,
a trailing style-reset run of the input is dropped by the scan. -/
theorem truncate_drops_trailing_reset (s : List Char) (target : Nat)
    (hagree : ∀ c ∈ s, tw c = fw c) (hwf : wfAnsi s = true)
    (hgt : visible_width s > target) :
    truncate_ansi (s ++ resetRun) target = truncate_ansi s target := by
  have hvwe := visible_width_append_resetRun s
  have hgt2 : ¬ visible_width (s ++ resetRun) ≤ target := by omega
  have hgt1 : ¬ visible_width s ≤ target := by omega
  rw [truncate_ansi_of_gt hgt2, truncate_ansi_of_gt hgt1]
  congr 1
  apply truncGo_append_of_overflow s hwf 0 ?_ resetRun
  have hmem : ∀ c ∈ stripAnsi s, tw c = fw c :=
    fun c hc => hagree c ((stripAnsi_sublist s).subset hc)
  have := twSum_eq_fwSum_of_agree hmem
  show 0 + twSum (stripAnsi s) > target
  have hvw : visible_width s = fwSum (stripAnsi s) := rfl
  omega

/-! ### Status modules and gathering -/

/-- The names of the fixed ordered module table `MODULE_FUNCS`
(source lines 387-417), in table order. -/
def MODULE_NAMES : List String :=
  ["title", "separator", "os", "host", "kernel", "uptime", "packages",
   "shell", "display", "de", "wm", "wmtheme", "theme", "icons", "font",
   "cursor", "terminal", "terminalfont", "cpu", "gpu", "memory", "swap",
   "disk", "localip", "battery", "poweradapter", "locale", "break", "colors"]

/-- One provider call's outcome: `Except.error` models the provider
raising an exception, `Except.ok none` a silent absence (`None`), and
`Except.ok (some v)` a value.  The providers shell out to the system and
are external collaborators; only their outcomes reach the gathering
code. -/
abbrev ProviderOutcome := Except Unit (Option (List Char))

/-- `gather_all_modules` (source lines 419-427): walk the table in order,
each call wrapped in try/except; a raising provider contributes `None`
for its field and the walk continues. -/
def gather_all_modules :
    List (String × ProviderOutcome) → List (String × Option (List Char))
  | [] => []
  | (name, f) :: rest =>
    (name, match f with | Except.ok v => v | Except.error _ => none) ::
      gather_all_modules rest

/-- Python `str.capitalize()`: first character upper-cased, the remainder
lower-cased (the module names are ASCII). -/
def pyCapitalize (s : List Char) : List Char :=
  match s with
  | [] => []
  | c :: cs => c.toUpper :: cs.map Char.toLower

/-- One rendered panel line of `build_spec_lines` (source lines 430-447):
three field names are rendered bare, all others as a bold label, a colon,
a reset, a space and the value. -/
def spec_entry (name : String) (val : List Char) : List Char :=
  if name = "separator" ∨ name = "colors" ∨ name = "title" then val
  else boldRun ++ pyCapitalize name.toList ++ [':'] ++ resetRun ++ [' '] ++ val

/-- `build_spec_lines(mods)`: present fields in table order, absent
(`None`) fields skipped. -/
def build_spec_lines (mods : List (String × Option (List Char))) :
    List (List Char) :=
  mods.filterMap (fun p => p.2.map (spec_entry p.1))

/-! ### Render loop and main as effect traces -/

/-- External-world oracle for one run of `render_loop`: the terminal's
column count as it would be read at tick `k`, and the provider-outcome
table as it would be observed by the k-th `gather_all_modules` call
(call 0 is the gather before the loop, call k ≥ 1 belongs to tick k). -/
structure Env where
  termCols : Nat → Nat
  providers : Nat → List (String × ProviderOutcome)

/-- Observable actions of `main` and `render_loop`.  The source contains
no terminal-mode manipulation at all; `setRawMode` and `restoreTermMode`
exist in this type so that their absence from every trace can be
stated. -/
inductive Eff where
  | gather (call : Nat)
  | readTermSize (cols : Nat)
  | print (line : List Char)
  | sleep
  | enterLoop
  | exitCode (code : Nat)
  | setRawMode
  | restoreTermMode
  deriving DecidableEq, Repr

def Eff.isPrint : Eff → Bool
  | Eff.print _ => true
  | _ => false

def Eff.isReadTermSize : Eff → Bool
  | Eff.readTermSize _ => true
  | _ => false

/-- The composed lines printed for one frame (body of the `while` loop,
source lines 469-485): the frame is cut/padded to `box_h` rows, each row
padded to `box_w` cells, and each of `max(box_h, len(spec_lines))` rows is
composed with the separator and the truncated panel line. -/
def render_tick_lines (term_w box_w box_h : Nat) (align : String)
    (frame : List (List Char)) (mods : List (String × Option (List Char))) :
    List (List Char) :=
  let spec_lines := build_spec_lines mods
  let frame2 := frame.take box_h ++ List.replicate (box_h - frame.length) []
  let padded_left := frame2.map (fun line => pad_ansi line box_w align)
  (List.range (max box_h spec_lines.length)).map (fun i =>
    let left := padded_left.getD i (List.replicate box_w ' ')
    let right := spec_lines.getD i []
    compose_row left right term_w)

/-- Effects of one tick: re-gather every module, print the composed
lines, sleep for the pacing delay. -/
def tickEffects (env : Env) (term_w box_w box_h : Nat) (align : String)
    (frames : List (List (List Char))) (k idx : Nat) : List Eff :=
  Eff.gather k ::
    (render_tick_lines term_w box_w box_h align (frames.getD idx [])
        (gather_all_modules (env.providers k))).map Eff.print ++
    [Eff.sleep]

/-- `n` consecutive ticks starting at gather call `k` and frame index
`idx`; the index advances modulo the frame count after every tick. -/
def renderTicks (env : Env) (term_w box_w box_h : Nat) (align : String)
    (frames : List (List (List Char))) : Nat → Nat → Nat → List Eff
  | 0, _, _ => []
  | n + 1, k, idx =>
    tickEffects env term_w box_w box_h align frames k idx ++
      renderTicks env term_w box_w box_h align frames n (k + 1)
        ((idx + 1) % frames.length)

/-- The effect trace of `render_loop` (source lines 449-489) when a
KeyboardInterrupt arrives after `nTicks` complete ticks: one gather
before the loop, a single terminal-size read (line 458, before the
`while`), the ticks — every one of which uses the startup column count —
and the exit message printed by the `except KeyboardInterrupt` handler. -/
def render_loop_trace (env : Env) (frames : List (List (List Char)))
    (box_w box_h : Nat) (align : String) (nTicks : Nat) : List Eff :=
  Eff.gather 0 :: Eff.readTermSize (env.termCols 0) ::
    (renderTicks env (env.termCols 0) box_w box_h align frames nTicks 1 0 ++
      [Eff.print "\nExiting gifzittofetch.".toList])

/-- `load_frames_from_dir` (source lines 119-130) with the filesystem
abstracted: `dirExists` says whether the animation directory exists and
`files` holds the (split) line lists of the sorted `frame_*.txt` files in
it.  Both failure modes raise `FileNotFoundError` in the source. -/
def load_frames_from_dir (dirExists : Bool)
    (files : List (List (List Char))) :
    Except String (List (List (List Char))) :=
  if dirExists = false then Except.error "Animation directory not found"
  else if files.isEmpty then Except.error "No frames found"
  else Except.ok files

/-- The effect trace of `main` (source lines 506-527) on the
frame-loading path (no `--gen-frames`): a load failure prints two
diagnostic lines and returns from `main`, so the process then exits with
status 0; on success the render loop is entered.  No terminal-mode
effect exists anywhere. -/
def main_effects (dirExists : Bool) (files : List (List (List Char))) :
    List Eff :=
  match load_frames_from_dir dirExists files with
  | Except.error e =>
    [Eff.print ("Error loading frames: " ++ e).toList,
     Eff.print ("Generate frames with: gifzittofetch --gen-frames " ++
       "-i input.gif --out ANIM_DIR").toList,
     Eff.exitCode 0]
  | Except.ok _ => [Eff.enterLoop]

/-! ### Concrete inputs used by counterexamples and witnesses -/

/-- U+4E00: counted as 2 cells by `visible_width` (it lies in
U+2E80-U+A4CF) but as 1 cell by `truncate_ansi`'s scan. -/
def cjkChar : Char := Char.ofNat 0x4E00

def cjkPair : List Char := [cjkChar, cjkChar]

/-- `cjkPair` followed by a trailing style-reset run. -/
def cjkPairReset : List Char := cjkPair ++ resetRun

/-- U+1F300: counted as 2 cells by both width tables. -/
def emojiChar : Char := Char.ofNat 0x1F300

def emojiPair : List Char := [emojiChar, emojiChar]

/-- A styled red string whose characters all have agreeing widths. -/
def styledHello : List Char := "\x1b[31mHELLO\x1b[0m".toList

/-- An environment in which the terminal is resized after startup and
the (single) provider reports a different value at every gather call. -/
def envMoving : Env where
  termCols := fun k => 80 + k
  providers := fun k => [("kernel", Except.ok (some [Char.ofNat (48 + k % 10)]))]

def oneBlankFrame : List (List (List Char)) := [[[]]]

/-! ### Trace facts -/

theorem gather_map_fst : ∀ (L : List (String × ProviderOutcome)),
    (gather_all_modules L).map Prod.fst = L.map Prod.fst := by
  intro L
  induction L with
  | nil => rfl
  | cons p rest ih =>
    obtain ⟨name, f⟩ := p
    simp only [gather_all_modules, List.map_cons, ih]

theorem tickEffects_mem {e : Eff} (env : Env) (term_w box_w box_h : Nat)
    (align : String) (frames : List (List (List Char))) (k idx : Nat)
    (h : e ∈ tickEffects env term_w box_w box_h align frames k idx) :
    e = Eff.gather k ∨ e.isPrint = true ∨ e = Eff.sleep := by
  simp only [tickEffects, List.mem_cons, List.mem_append, List.mem_map,
    List.mem_singleton] at h
  rcases h with (h | ⟨l, _, rfl⟩) | h | h
  · exact Or.inl h
  · exact Or.inr (Or.inl rfl)
  · exact Or.inr (Or.inr h)
  · exact absurd h (List.not_mem_nil e)

theorem renderTicks_mem {e : Eff} (env : Env) (term_w box_w box_h : Nat)
    (align : String) (frames : List (List (List Char))) :
    ∀ (n k idx : Nat),
      e ∈ renderTicks env term_w box_w box_h align frames n k idx →
        (∃ j, e = Eff.gather j) ∨ e.isPrint = true ∨ e = Eff.sleep := by
  intro n
  induction n with
  | zero => intro k idx h; simp [renderTicks] at h
  | succ n ih =>
    intro k idx h
    simp only [renderTicks, List.mem_append] at h
    rcases h with h | h
    · rcases tickEffects_mem env term_w box_w box_h align frames k idx h with
        h1 | h2
      · exact Or.inl ⟨k, h1⟩
      · exact Or.inr h2
    · exact ih (k + 1) ((idx + 1) % frames.length) h

theorem renderLoopTrace_mem {e : Eff} (env : Env)
    (frames : List (List (List Char))) (box_w box_h : Nat) (align : String)
    (nTicks : Nat)
    (h : e ∈ render_loop_trace env frames box_w box_h align nTicks) :
    (∃ j, e = Eff.gather j) ∨ (∃ c, e = Eff.readTermSize c) ∨
      e.isPrint = true ∨ e = Eff.sleep := by
  simp only [render_loop_trace, List.mem_cons, List.mem_append,
    List.mem_singleton] at h
  rcases h with h | h | h | h | h
  · exact Or.inl ⟨0, h⟩
  · exact Or.inr (Or.inl ⟨env.termCols 0, h⟩)
  · rcases renderTicks_mem env (env.termCols 0) box_w box_h align frames
        nTicks 1 0 h with h1 | h2 | h3
    · exact Or.inl h1
    · exact Or.inr (Or.inr (Or.inl h2))
    · exact Or.inr (Or.inr (Or.inr h3))
  · subst h
    exact Or.inr (Or.inr (Or.inl rfl))
  · exact absurd h (List.not_mem_nil e)

theorem renderTicks_gather_mem (env : Env) (term_w box_w box_h : Nat)
    (align : String) (frames : List (List (List Char))) :
    ∀ (n k0 idx k : Nat), k0 ≤ k → k < k0 + n →
      Eff.gather k ∈ renderTicks env term_w box_w box_h align frames n k0 idx := by
  intro n
  induction n with
  | zero => intro k0 idx k h1 h2; omega
  | succ n ih =>
    intro k0 idx k h1 h2
    simp only [renderTicks, List.mem_append]
    by_cases hk : k = k0
    · subst hk
      exact Or.inl (by simp [tickEffects])
    · exact Or.inr (ih (k0 + 1) ((idx + 1) % frames.length) k (by omega) (by omega))

theorem tickEffects_filter_read (env : Env) (term_w box_w box_h : Nat)
    (align : String) (frames : List (List (List Char))) (k idx : Nat) :
    (tickEffects env term_w box_w box_h align frames k idx).filter
      Eff.isReadTermSize = [] := by
  rw [List.filter_eq_nil_iff]
  intro e he
  rcases tickEffects_mem env term_w box_w box_h align frames k idx he with
    h | h | h
  · subst h; simp [Eff.isReadTermSize]
  · cases e <;> simp_all [Eff.isPrint, Eff.isReadTermSize]
  · subst h; simp [Eff.isReadTermSize]

theorem renderTicks_filter_read (env : Env) (term_w box_w box_h : Nat)
    (align : String) (frames : List (List (List Char))) :
    ∀ (n k idx : Nat),
      (renderTicks env term_w box_w box_h align frames n k idx).filter
        Eff.isReadTermSize = [] := by
  intro n
  induction n with
  | zero => intro k idx; rfl
  | succ n ih =>
    intro k idx
    simp only [renderTicks, List.filter_append,
      tickEffects_filter_read env term_w box_w box_h align frames k idx,
      ih (k + 1) ((idx + 1) % frames.length)]
    rfl

/-! ### The claims -/

/-- C1, counterexample: on the string of two U+4E00 ideographs and target
3, truncation emits both characters (the scan counts each as 1 cell) and
the result has visible width 4 > 3, refuting
`visibleWidth(truncate(s, n)) ≤ n` as a universal statement. -/
theorem C1_counterexample : ¬ visible_width (truncate_ansi cjkPair 3) ≤ 3 := by
  decide

/-- C1, amended: for every string whose characters are classified with
the same width by `visible_width` and by `truncate_ansi`'s scan (in
particular any string without wide characters outside U+1100-U+115F and
U+1F300-U+1F64F), the visible width of `truncate_ansi s n` is at most
`n`, for every non-negative `n`. -/
theorem C1_truncate_width_le (s : List Char) (n : Nat)
    (h : ∀ c ∈ s, tw c = fw c) :
    visible_width (truncate_ansi s n) ≤ n :=
  truncate_ansi_width_le s n h

/-- Witness for C1 at the styled string `ESC[31m HELLO ESC[0m` and
target 3. -/
theorem C1_witness :
    (∀ c ∈ styledHello, tw c = fw c) ∧
      visible_width (truncate_ansi styledHello 3) ≤ 3 :=
  ⟨by decide, C1_truncate_width_le styledHello 3 (by decide)⟩

/-- C2, counterexample: two U+1F300 emoji (width 2 in both tables) padded
to 3 give visible width 2, not 3 — the wide glyph at the boundary is
dropped whole, so `pad` does not reach the target when the input
overflows it. -/
theorem C2_counterexample :
    ¬ visible_width (pad_ansi emojiPair 3 "left") = 3 := by
  decide

/-- C2, amended: whenever the input's visible width is at most the
target, `pad_ansi` produces exactly the target width, for every
alignment. -/
theorem C2_pad_exact_width (s : List Char) (target : Nat) (align : String)
    (h : visible_width s ≤ target) :
    visible_width (pad_ansi s target align) = target :=
  pad_ansi_width_of_le s target align h

/-- Witness for C2 at the string `ok`, target 5, center alignment. -/
theorem C2_witness :
    visible_width ("ok".toList) ≤ 5 ∧
      visible_width (pad_ansi ("ok".toList) 5 "center") = 5 :=
  ⟨by decide, C2_pad_exact_width ("ok".toList) 5 "center" (by decide)⟩

/-- C3: whenever truncation actually occurs (the visible width exceeds
the target), the result of `truncate_ansi` ends with the style-reset run
`ESC[0m`, so a truncated styled line cannot leak color into subsequent
output. -/
theorem C3_truncated_ends_reset (s : List Char) (t : Nat)
    (h : visible_width s > t) :
    ∃ out, truncate_ansi s t = out ++ resetRun :=
  ⟨truncGo t 0 s, truncate_ansi_of_gt (by omega)⟩

/-- Witness for C3 at the styled string `ESC[31m HELLO ESC[0m` and
target 3. -/
theorem C3_witness :
    visible_width styledHello > 3 ∧
      ∃ out, truncate_ansi styledHello 3 = out ++ resetRun :=
  ⟨by decide, C3_truncated_ends_reset styledHello 3 (by decide)⟩

/-- C4, counterexample: with empty left segment, the standard separator
and terminal width 6 (≥ 0 + 3), the right segment of two U+4E00
ideographs is truncated to 3 but keeps visible width 4, so the composed
line has width 7 > 6. -/
theorem C4_counterexample :
    visible_width ([] : List Char) + visible_width SEPARATOR_CHAR ≤ 6 ∧
      ¬ visible_width (compose_row [] cjkPair 6) ≤ 6 := by
  decide

/-- C4, amended: the right segment is truncated to
`max(0, columns - visibleWidth(left) - visibleWidth(separator))`, and
whenever the terminal width covers left plus separator AND the right
segment's characters have agreeing widths in both tables, the composed
line's visible width is at most the terminal width. -/
theorem C4_compose_width_le (left right : List Char) (cols : Nat)
    (hagree : ∀ c ∈ right, tw c = fw c)
    (hterm : visible_width left + visible_width SEPARATOR_CHAR ≤ cols) :
    visible_width (compose_row left right cols) ≤ cols := by
  show visible_width (left ++ SEPARATOR_CHAR ++ truncate_ansi right
    (cols - visible_width left - visible_width SEPARATOR_CHAR)) ≤ cols
  rw [visible_width_sep_append]
  have ht := truncate_ansi_width_le right
    (cols - visible_width left - visible_width SEPARATOR_CHAR) hagree
  omega

/-- Witness for C4: left `ab`, right the styled HELLO string, width 10. -/
theorem C4_witness :
    (∀ c ∈ styledHello, tw c = fw c) ∧
      visible_width ("ab".toList) + visible_width SEPARATOR_CHAR ≤ 10 ∧
      visible_width (compose_row ("ab".toList) styledHello 10) ≤ 10 :=
  ⟨by decide, by decide,
    C4_compose_width_le ("ab".toList) styledHello 10 (by decide) (by decide)⟩

/-- C5, counterexample: with an existing directory and zero frames,
`main` prints a TWO-line diagnostic (not one line) and the process exits
with status 0 (not non-zero): the trace is two prints followed by
`exitCode 0`. -/
theorem C5_counterexample :
    ¬ (((main_effects true []).filter Eff.isPrint).length = 1 ∧
        ∃ n, n ≠ 0 ∧ Eff.exitCode n ∈ main_effects true []) := by
  intro h
  exact absurd h.1 (by decide)

/-- C5, amended: if the frame source yields zero frames, loading fails
(`FileNotFoundError`), the render loop never starts, a two-line
diagnostic is printed, the process exits with status zero, and no
raw-mode side effect occurs (the program never touches terminal modes). -/
theorem C5_no_frames_behavior (dirExists : Bool)
    (files : List (List (List Char))) (h : files = []) :
    Eff.enterLoop ∉ main_effects dirExists files ∧
      ((main_effects dirExists files).filter Eff.isPrint).length = 2 ∧
      Eff.exitCode 0 ∈ main_effects dirExists files ∧
      Eff.setRawMode ∉ main_effects dirExists files := by
  subst h
  cases dirExists
  · decide
  · decide

/-- Witness for C5 at an existing directory with an empty frame list. -/
theorem C5_witness :
    (([] : List (List (List Char))) = []) ∧
      (Eff.enterLoop ∉ main_effects true [] ∧
        ((main_effects true []).filter Eff.isPrint).length = 2 ∧
        Eff.exitCode 0 ∈ main_effects true [] ∧
        Eff.setRawMode ∉ main_effects true []) :=
  ⟨rfl, C5_no_frames_behavior true [] rfl⟩

/-- C6, counterexample: a complete interrupted run (2 ticks, then
KeyboardInterrupt) contains no terminal-mode restore action at all — no
Cancellation Controller or release call exists in the code, so nothing
restores the terminal mode on the exit path (nothing ever changes it
either). -/
theorem C6_counterexample :
    Eff.restoreTermMode ∉
      render_loop_trace envMoving oneBlankFrame 1 1 "left" 2 := by
  decide

/-- C6, amended: the render loop performs no terminal-mode operations on
any path: no trace of any run, for any environment, frame set, geometry
or tick count, contains a raw-mode acquisition or a terminal-mode
restore; the terminal input mode is therefore unchanged (never raw) on
every exit path. -/
theorem C6_no_terminal_mode_change (env : Env)
    (frames : List (List (List Char))) (box_w box_h : Nat) (align : String)
    (nTicks : Nat) :
    Eff.setRawMode ∉ render_loop_trace env frames box_w box_h align nTicks ∧
      Eff.restoreTermMode ∉
        render_loop_trace env frames box_w box_h align nTicks := by
  constructor <;>
    · intro hmem
      rcases renderLoopTrace_mem env frames box_w box_h align nTicks hmem with
        ⟨j, hj⟩ | ⟨c, hc⟩ | hp | hs <;> simp_all [Eff.isPrint]

/-- C7, counterexample: in a 2-tick run the full module table is
re-gathered at tick 1 AND at tick 2 (consecutive ticks, one `1/fps` sleep
apart, with no elapsed-time condition in the code), and the freshly
gathered values differ between the ticks — the previously stored values
are not reused. -/
theorem C7_counterexample :
    Eff.gather 1 ∈ render_loop_trace envMoving oneBlankFrame 1 1 "left" 2 ∧
      Eff.gather 2 ∈ render_loop_trace envMoving oneBlankFrame 1 1 "left" 2 ∧
      gather_all_modules (envMoving.providers 1) ≠
        gather_all_modules (envMoving.providers 2) := by
  decide

/-- C7, amended: there are no refresh tiers: `gather_all_modules`
re-queries every field once before the loop and once more on every single
tick, unconditionally — the k-th tick's gather call appears in the trace
for every 1 ≤ k ≤ nTicks. -/
theorem C7_gather_every_tick (env : Env) (frames : List (List (List Char)))
    (box_w box_h : Nat) (align : String) (n k : Nat)
    (h1 : 1 ≤ k) (h2 : k ≤ n) :
    Eff.gather k ∈ render_loop_trace env frames box_w box_h align n := by
  simp only [render_loop_trace, List.mem_cons, List.mem_append,
    List.mem_singleton]
  exact Or.inr (Or.inr (Or.inl
    (renderTicks_gather_mem env (env.termCols 0) box_w box_h align frames
      n 1 0 k h1 (by omega))))

/-- Witness for C7: the tick-2 gather in a 3-tick run. -/
theorem C7_witness :
    1 ≤ 2 ∧ 2 ≤ 3 ∧
      Eff.gather 2 ∈ render_loop_trace envMoving oneBlankFrame 1 1 "left" 3 :=
  ⟨by decide, by decide,
    C7_gather_every_tick envMoving oneBlankFrame 1 1 "left" 3 2
      (by decide) (by decide)⟩

/-- C8, counterexample: in a 3-tick run during which the terminal is
resized (column oracle 80, 81, 82, ...), the trace contains exactly ONE
terminal-size read, of the startup value 80 — the column count is not
read on every draw tick and is cached across ticks, so the resize never
affects the output. -/
theorem C8_counterexample :
    (render_loop_trace envMoving oneBlankFrame 1 1 "left" 3).filter
        Eff.isReadTermSize = [Eff.readTermSize 80] ∧
      envMoving.termCols 1 ≠ 80 := by
  decide

/-- C8, amended: the terminal column count is read exactly once, before
the loop starts, and the cached startup value bounds every subsequent
tick's lines: in every run the trace's only size read is
`readTermSize (termCols 0)`. -/
theorem C8_termsize_read_once (env : Env) (frames : List (List (List Char)))
    (box_w box_h : Nat) (align : String) (n : Nat) :
    (render_loop_trace env frames box_w box_h align n).filter
      Eff.isReadTermSize = [Eff.readTermSize (env.termCols 0)] := by
  simp only [render_loop_trace, List.filter_cons, List.filter_append,
    renderTicks_filter_read env (env.termCols 0) box_w box_h align frames n 1 0]
  simp [Eff.isReadTermSize]

/-- C9: a provider that raises is isolated: gathering a table with a
raising provider in the middle yields exactly the gathered prefix, the
failing field as `none`, and the gathered suffix — every other field is
still queried and keeps its original position (the name column of the
result equals the name column of the table, in order). -/
theorem C9_gather_isolates (pre post : List (String × ProviderOutcome))
    (nm : String) :
    gather_all_modules (pre ++ (nm, Except.error ()) :: post) =
        gather_all_modules pre ++ (nm, none) :: gather_all_modules post ∧
      (gather_all_modules (pre ++ (nm, Except.error ()) :: post)).map
          Prod.fst = (pre ++ (nm, Except.error ()) :: post).map Prod.fst := by
  constructor
  · induction pre with
    | nil => rfl
    | cons p rest ih =>
      obtain ⟨a, b⟩ := p
      show (a, match b with | Except.ok v => v | Except.error _ => none) ::
          gather_all_modules (rest ++ (nm, Except.error ()) :: post) =
        ((a, match b with | Except.ok v => v | Except.error _ => none) ::
          gather_all_modules rest) ++ (nm, none) :: gather_all_modules post
      rw [ih, List.cons_append]
  · exact gather_map_fst _

/-- C10, counterexample: on two U+4E00 ideographs followed by a trailing
reset run, with target 3, truncation occurs (visible width 4 > 3) yet the
scan reaches the end of the input and copies the input's trailing reset
run, so the output carries the input reset AND the appended reset — the
trailing reset is not dropped. -/
theorem C10_counterexample :
    visible_width cjkPairReset > 3 ∧
      truncate_ansi cjkPairReset 3 = (cjkPair ++ resetRun) ++ resetRun ∧
      (cjkPair ++ resetRun) ++ resetRun ≠ cjkPair ++ resetRun := by
  decide

/-- C10, amended: escape runs at or after the scan-stop point are not
copied, and in particular an input's trailing reset run is dropped,
PROVIDED the scan actually stops before the end of the input — which
holds whenever every character's width classification agrees between the
two tables and every ESC byte begins a complete escape run; then
truncating `s ++ ESC[0m` equals truncating `s`. -/
theorem C10_scan_stop_drops_trailing_reset (s : List Char) (target : Nat)
    (hagree : ∀ c ∈ s, tw c = fw c) (hwf : wfAnsi s = true)
    (hgt : visible_width s > target) :
    truncate_ansi (s ++ resetRun) target = truncate_ansi s target :=
  truncate_drops_trailing_reset s target hagree hwf hgt

/-- Witness for C10 at the styled HELLO string and target 2. -/
theorem C10_witness :
    (∀ c ∈ styledHello, tw c = fw c) ∧ wfAnsi styledHello = true ∧
      visible_width styledHello > 2 ∧
      truncate_ansi (styledHello ++ resetRun) 2 =
        truncate_ansi styledHello 2 :=
  ⟨by decide, by decide, by decide,
    C10_scan_stop_drops_trailing_reset styledHello 2 (by decide) (by decide)
      (by decide)⟩

end Zittofetch
